import Mathlib

/-!
Verification development for the neural-search native kernels.

The C++ sources are embedded shallowly:

* `src/jni/src/dp.cpp` — three sparse·dense dot-product kernels.
  Machine buffers become Lean lists; a buffer of length `n` with an
  access at an index outside `[0, n)` is undefined behaviour in C, so
  every array read goes through `Option` and the whole kernel returns
  `Option α` (`none` = an out-of-bounds access happened).  The float
  kernels are modelled with exact rational arithmetic (the claims under
  study are about which elements are accumulated, not about rounding);
  the `int8` kernel's C `int` accumulator is modelled as a 32-bit
  two's-complement wrap.  `v1_size` is the length of the token list and
  `v2_size` the length of the dense list, exactly as the JNI bridge
  passes them.

* `src/jni/src/Timer.h` and `src/jni/src/StopTimerAggregator.{h,cpp}` —
  the timing utility.  The monotonic clock becomes an ambient function
  `τ : ℕ → ℚ` giving the value of the k-th `now()` call together with a
  call counter threaded through the operations; console output and
  reporter calls become returned lists; the `std::map`-based collectors
  become association lists.
-/

namespace NeuralSearch

/-! ## Embedding of dp.cpp -/

/-- A read of `values2[t]` for a dense buffer of length `values2.length`.
In C this is defined only for `0 ≤ t < length`; everything else is UB. -/
def readDense {α : Type} (v2 : List α) (t : Int) : Option α :=
  if t < 0 then none else v2.get? t.toNat

/-- One element of the scalar kernels' loop body at index `i`:
`if (tokens[i] >= v2_size) break; result += values1[i] * values2[tokens[i]];`
The outer `none` is UB (an out-of-bounds read); `some none` is the break;
`some (some acc)` continues with the new accumulator.  The accumulation
`result += values1[i] * values2[tokens[i]]` is abstracted as `f`. -/
def elemStep {α : Type} (f : α → α → α → α) (tokens : List Int) (v1 v2 : List α)
    (i : Nat) (acc : α) : Option (Option α) :=
  match tokens.get? i with
  | none => none
  | some t =>
    if (v2.length : Int) ≤ t then some none
    else
      match v1.get? i, readDense v2 t with
      | some w, some d => some (some (f acc w d))
      | _, _ => none

/-- The manually unrolled main loop of the scalar kernels
(`for (; i < limit; i += unroll_factor)` with `unroll_factor = 4`):
each of the four positions checks the early-termination condition and,
when it triggers, advances `i` by the partial amount (`0`, `++i`,
`i += 2`, `i += 3`) before breaking.  The first argument is the number
of whole blocks left, i.e. `(limit - i) / 4`; the result is the pair
`(i, result)` at loop exit. -/
def mainLoop {α : Type} (f : α → α → α → α) (tokens : List Int) (v1 v2 : List α) :
    Nat → Nat → α → Option (Nat × α)
  | 0, i, acc => some (i, acc)
  | b + 1, i, acc =>
    match elemStep f tokens v1 v2 i acc with
    | none => none
    | some none => some (i, acc)
    | some (some a1) =>
      match elemStep f tokens v1 v2 (i + 1) a1 with
      | none => none
      | some none => some (i + 1, a1)
      | some (some a2) =>
        match elemStep f tokens v1 v2 (i + 2) a2 with
        | none => none
        | some none => some (i + 2, a2)
        | some (some a3) =>
          match elemStep f tokens v1 v2 (i + 3) a3 with
          | none => none
          | some none => some (i + 3, a3)
          | some (some a4) => mainLoop f tokens v1 v2 b (i + 4) a4

/-- The single-element remainder loop of the scalar kernels
(`for (; i < v1_size; ++i)`): the first argument is the number of
iterations left, `v1_size - i`. -/
def remLoop {α : Type} (f : α → α → α → α) (tokens : List Int) (v1 v2 : List α) :
    Nat → Nat → α → Option α
  | 0, _, acc => some acc
  | n + 1, i, acc =>
    match elemStep f tokens v1 v2 i acc with
    | none => none
    | some none => some acc
    | some (some a1) => remLoop f tokens v1 v2 n (i + 1) a1

/-- Common shape of `sparse_dot_product_native` and
`sparse_dot_product_native_int8` from `dp.cpp`: early exit on empty
vectors, the unrolled main loop up to `limit = v1_size - v1_size % 4`,
then the scalar remainder loop. -/
def sparse_kernel {α : Type} (f : α → α → α → α) (z : α)
    (tokens : List Int) (values1 values2 : List α) : Option α :=
  if tokens.length = 0 ∨ values2.length = 0 then some z
  else
    let limit := tokens.length - tokens.length % 4
    match mainLoop f tokens values1 values2 (limit / 4) 0 z with
    | none => none
    | some (i, acc) => remLoop f tokens values1 values2 (tokens.length - i) i acc

/-- `result += values1[i] * values2[tokens[i]]` in 32-bit float,
modelled exactly over ℚ. -/
def qstep (acc w d : ℚ) : ℚ := acc + w * d

/-- Two's-complement wrap of a C `int` (32 bits). -/
def wrap32 (x : Int) : Int := (x + 2 ^ 31) % 2 ^ 32 - 2 ^ 31

/-- `result += values1[i] * values2[tokens[i]]` in the int8 kernel: the
`int8_t` operands are promoted to `int`, multiplied (the product always
fits), and added into the 32-bit `int` accumulator. -/
def istep (acc w d : Int) : Int := wrap32 (acc + w * d)

/-- The same accumulation with an unbounded (exact) accumulator. -/
def istepExact (acc w d : Int) : Int := acc + w * d

/-- `sparse_dot_product_native` (dp.cpp lines 18–71). -/
def sparse_dot_product_native (tokens : List Int) (values1 values2 : List ℚ) :
    Option ℚ :=
  sparse_kernel qstep 0 tokens values1 values2

/-- `sparse_dot_product_native_int8` (dp.cpp lines 73–125). -/
def sparse_dot_product_native_int8 (tokens : List Int) (values1 values2 : List Int) :
    Option Int :=
  sparse_kernel istep 0 tokens values1 values2

/-- `sparse_dot_product_native_int8` recomputed with an exact (unbounded)
accumulator: the mathematical sum the 32-bit accumulator is supposed to
reach. -/
def sparse_dot_product_int8_exact (tokens : List Int) (values1 values2 : List Int) :
    Option Int :=
  sparse_kernel istepExact 0 tokens values1 values2

/-! ### The SIMD kernel -/

/-- `_mm256_loadu_ps(&values1[i])` and similar: read `k` consecutive
elements starting at index `i`; `none` if the read runs past the buffer. -/
def loadK {α : Type} (v1 : List α) : Nat → Nat → Option (List α)
  | _, 0 => some []
  | i, k + 1 =>
    match v1.get? i, loadK v1 (i + 1) k with
    | some w, some rest => some (w :: rest)
    | _, _ => none

/-- The gather loop of `sparse_dot_product_simd`
(`for (int j = 0; j < 8; j++)`): lane `j` receives `values2[tokens[i+j]]`
when `tokens[i+j] < v2_size` and `0.0f` otherwise — the group is not cut
short at an out-of-range token.  A negative token passes the one-sided
test and the dense read is out of bounds (`none`). -/
def gatherTemp (tokens : List Int) (v2 : List ℚ) : Nat → Nat → Option (List ℚ)
  | _, 0 => some []
  | i, k + 1 =>
    match tokens.get? i with
    | none => none
    | some t =>
      match (if t < (v2.length : Int) then readDense v2 t else some 0),
            gatherTemp tokens v2 (i + 1) k with
      | some d, some rest => some (d :: rest)
      | _, _ => none

/-- The SIMD main loop (`for (; i < simd_limit; i += simd_width)`): load
8 weights, gather 8 dense values, fused multiply-add into the 8 lanes.
First argument is the number of whole 8-groups left. -/
def simdLoop (tokens : List Int) (v1 v2 : List ℚ) :
    Nat → Nat → List ℚ → Option (List ℚ)
  | 0, _, lanes => some lanes
  | b + 1, i, lanes =>
    match loadK v1 i 8, gatherTemp tokens v2 i 8 with
    | some ws, some temp =>
        simdLoop tokens v1 v2 b (i + 8)
          (List.zipWith (· + ·) lanes (List.zipWith (· * ·) ws temp))
    | _, _ => none

/-- `sparse_dot_product_simd` (dp.cpp lines 133–183): the SIMD loop over
whole groups of 8, a horizontal add of the 8 lanes, then the scalar
early-termination loop for the remainder. -/
def sparse_dot_product_simd (tokens : List Int) (values1 values2 : List ℚ) :
    Option ℚ :=
  if tokens.length = 0 ∨ values2.length = 0 then some 0
  else
    let n := tokens.length
    let simd_limit := n - n % 8
    match simdLoop tokens values1 values2 (simd_limit / 8) 0 (List.replicate 8 0) with
    | none => none
    | some lanes => remLoop qstep tokens values1 values2 (n - simd_limit) simd_limit lanes.sum

/-! ## A structural reference loop for the scalar kernels

`goLoop` walks the sparse vector one element at a time and stops at the
first `tokens[i] >= v2_size`, exactly like the remainder loop of the
scalar kernels; the bridge lemmas below show the unrolled kernels are
extensionally this loop. -/

/-- Single-element early-termination loop, structurally on the lists. -/
def goLoop {α : Type} (f : α → α → α → α) (v2 : List α) :
    List Int → List α → α → Option α
  | [], _, acc => some acc
  | t :: ts, ws, acc =>
    if (v2.length : Int) ≤ t then some acc
    else
      match ws, readDense v2 t with
      | w :: ws2, some d => goLoop f v2 ts ws2 (f acc w d)
      | _, _ => none

/-- The spec's naive reference loop for the float kernel: visit one
element at a time in increasing order, stop entirely at the first
`tokens[i] >= v2_size`, and accumulate `values1[i] * values2[tokens[i]]`
for every element before that point. -/
def referenceGo (v2 : List ℚ) : List Int → List ℚ → ℚ → Option ℚ
  | [], _, acc => some acc
  | t :: ts, ws, acc =>
    if (v2.length : Int) ≤ t then some acc
    else
      match ws, readDense v2 t with
      | w :: ws2, some d => referenceGo v2 ts ws2 (acc + w * d)
      | _, _ => none

/-- The spec's reference behaviour of the scalar float kernel: zero on a
degenerate input, otherwise the naive single-element loop. -/
def referenceDot (tokens : List Int) (v1 v2 : List ℚ) : Option ℚ :=
  if tokens.length = 0 ∨ v2.length = 0 then some 0
  else referenceGo v2 tokens v1 0

/-- The spec's description of the float kernel's value: the sum of
`values1[i] * values2[tokens[i]]` over the longest prefix in which every
token is below `v2_size`. -/
def specPrefixSum (tokens : List Int) (v1 v2 : List ℚ) : ℚ :=
  (((tokens.zip v1).takeWhile fun p => p.1 < (v2.length : Int)).map
    fun p => p.2 * v2.getD p.1.toNat 0).sum

/-- The plain dot product of aligned token/weight lists against a dense
vector: the value all kernels compute when every token is in range. -/
def dotQ (v2 : List ℚ) (ts : List Int) (ws : List ℚ) : ℚ :=
  (List.zipWith (fun t w => w * v2.getD t.toNat 0) ts ws).sum

/-! ## Embedding of Timer.h and the StopTimerAggregator -/

/-- `std::unordered_map<std::string, duration>` as an association list. -/
abbrev TagMap := List (String × ℚ)

/-- `collector_t`: group ↦ tag ↦ cumulative duration in milliseconds. -/
abbrev Collector := List (String × TagMap)

/-- `m[tag] += d` on a tag map (`operator[]` default-constructs `0.0`
for an absent key). -/
def addTag : TagMap → String → ℚ → TagMap
  | [], tag, d => [(tag, d)]
  | (k, v) :: rest, tag, d =>
    if k = tag then (k, v + d) :: rest
    else (k, v) :: addTag rest tag d

/-- `c[group][tag] += d` on a collector. -/
def addEntry : Collector → String → String → ℚ → Collector
  | [], g, tag, d => [(g, addTag [] tag d)]
  | (k, gl) :: rest, g, tag, d =>
    if k = g then (k, addTag gl tag d) :: rest
    else (k, gl) :: addEntry rest g tag d

/-- The duration stored for `tag` (`0` when the key is absent). -/
def lookupTag : TagMap → String → ℚ
  | [], _ => 0
  | (k, v) :: rest, tag => if k = tag then v else lookupTag rest tag

/-- The duration stored for `(group, tag)` (`0` when absent). -/
def lookupGT : Collector → String → String → ℚ
  | [], _, _ => 0
  | (k, gl) :: rest, g, tag =>
    if k = g then lookupTag gl tag else lookupGT rest g tag

/-- `StopTimerAggregator::collect` (StopTimerAggregator.cpp lines 18–25):
for every `(group, tag)` pair of the calling thread's collector, add its
duration into the aggregator's collection
(`collection[group][tag] += duration`).  The thread-local argument is
only read. -/
def collect (collection threadLocal : Collector) : Collector :=
  threadLocal.foldl
    (fun a p => p.2.foldl (fun a2 q => addEntry a2 p.1 q.1 q.2) a) collection

/-- A C++ map never stores a key twice. -/
def CollectorWF (c : Collector) : Prop :=
  (c.map Prod.fst).Nodup ∧ ∀ p ∈ c, (p.2.map Prod.fst).Nodup

/-- One line of `StopTimerAggregator::report` for one tag: the printed
duration and percentage, and whether the distinct last-item prefix was
used.  A percentage of `none` records that the printed `double` came
from dividing by a zero group total (a NaN or infinity, not a number). -/
structure ReportLine where
  tag : String
  duration : ℚ
  percentage : Option ℚ
  isLast : Bool
deriving DecidableEq

/-- `(duration.count() / total) * 100` in IEEE doubles: a finite number
exactly when the denominator is nonzero. -/
def percentOf (d total : ℚ) : Option ℚ :=
  if total = 0 then none else some (d / total * 100)

/-- The per-group body of `StopTimerAggregator::report`
(StopTimerAggregator.cpp lines 28–58): the group total, then one line
per tag with its percentage share, the final tag marked as last. -/
def reportGroup (gl : TagMap) : List ReportLine :=
  let total := (gl.map fun p => p.2).sum
  gl.enum.map fun p =>
    { tag := p.2.1
      duration := p.2.2
      percentage := percentOf p.2.2 total
      isLast := p.1 + 1 = gl.length }

/-- `StopTimerAggregator::report`: every group of the collection is
rendered with its tag lines; no group is skipped. -/
def report (c : Collector) : List (String × List ReportLine) :=
  c.map fun p => (p.1, reportGroup p.2)

/-- A `Timer` (Timer.h lines 38–71): tag, count, and the start timestamp
captured by the constructor. -/
structure Timer where
  tag : String
  count : Int
  startTime : ℚ
deriving DecidableEq

/-- `Timer::Timer` (Timer.h lines 40–42): captures
`high_resolution_clock::now()` unconditionally — the constructor has no
`TIMER_DEBUG` test.  The clock is modelled by the ambient value function
`τ` (the value returned by the k-th `now()` call) and a counter `clock`
of `now()` calls made so far; the constructor consumes one call. -/
def Timer.construct (τ : Nat → ℚ) (clock : Nat) (tag : String) (count : Int) :
    Timer × Nat :=
  ({ tag := tag, count := count, startTime := τ clock }, clock + 1)

/-- One line printed by `~Timer`. -/
structure TimerOutput where
  tag : String
  ms : ℚ
  avg : Option ℚ
deriving DecidableEq

/-- `Timer::~Timer` (Timer.h lines 43–56): a no-op unless `TIMER_DEBUG`;
otherwise one `now()` call (inside `Get`) and one output line, carrying
an average exactly when `count` is nonzero. -/
def Timer.destruct (debug : Bool) (τ : Nat → ℚ) (clock : Nat) (tm : Timer) :
    Nat × List TimerOutput :=
  if !debug then (clock, [])
  else
    let milli := τ clock - tm.startTime
    (clock + 1,
      [{ tag := tm.tag, ms := milli,
         avg := if tm.count ≠ 0 then some (milli / (tm.count : ℚ)) else none }])

/-- A `StopTimerT`: its group name and recorded checkpoints. -/
structure StopTimer where
  group : String
  stops : List (ℚ × String)
deriving DecidableEq

/-- `StopTimerT::Stop` (Timer.h lines 117–123): a no-op unless
`TIMER_DEBUG`; otherwise captures `now()` and appends the checkpoint. -/
def StopTimer.Stop (debug : Bool) (τ : Nat → ℚ) (clock : Nat) (tag : String)
    (st : StopTimer) : StopTimer × Nat :=
  if !debug then (st, clock)
  else ({ st with stops := st.stops ++ [(τ clock, tag)] }, clock + 1)

/-- The reporting walk of `StopTimerT::Done`: starting from
`(last_time, last_tag) = stops[0]`, every later checkpoint reports
`(group, last_tag, now_time - last_time)` and becomes the new `last`. -/
def doneWalk (group : String) : ℚ × String → List (ℚ × String) → List (String × String × ℚ)
  | _, [] => []
  | last, (tnow, tag) :: rest =>
    (group, last.2, tnow - last.1) :: doneWalk group (tnow, tag) rest

/-- `StopTimerT::Done` (Timer.h lines 125–139): a no-op when the flag is
off or no checkpoint was recorded; otherwise appends a final `"end"`
checkpoint at the current time, reports every consecutive pair under the
earlier checkpoint's tag, and clears the checkpoint sequence.  Returns
the new timer state, the clock, and the reported samples. -/
def StopTimer.Done (debug : Bool) (τ : Nat → ℚ) (clock : Nat) (st : StopTimer) :
    StopTimer × Nat × List (String × String × ℚ) :=
  if !debug || st.stops.isEmpty then (st, clock, [])
  else
    match st.stops ++ [(τ clock, "end")] with
    | [] => (st, clock, [])
    | first :: rest =>
      ({ st with stops := [] }, clock + 1, doneWalk st.group first rest)

/-- `AggregatedReporter::report` (Timer.h lines 101–108) applied to a
list of samples: `stopTimerAggregator[group][tag] += diff` for each. -/
def applyReports (c : Collector) (l : List (String × String × ℚ)) : Collector :=
  l.foldl (fun a r => addEntry a r.1 r.2.1 r.2.2) c

/-- The spec's description of `Done`'s report list: the consecutive
checkpoint pairs, each interval reported under the earlier checkpoint's
tag. -/
def specIntervals (group : String) (l : List (ℚ × String)) :
    List (String × String × ℚ) :=
  (l.zip l.tail).map fun p => (group, p.1.2, p.2.1 - p.1.1)

lemma remLoop_eq_goLoop {α : Type} (f : α → α → α → α)
    (tokens : List Int) (v1 v2 : List α) :
    ∀ (n i : Nat) (acc : α), n = tokens.length - i →
      remLoop f tokens v1 v2 n i acc = goLoop f v2 (tokens.drop i) (v1.drop i) acc := by
  intro n
  induction n with
  | zero =>
    intro i acc h
    have hle : tokens.length ≤ i := by omega
    rw [List.drop_eq_nil_of_le hle]
    rfl
  | succ n ih =>
    intro i acc h
    have hi : i < tokens.length := by omega
    rw [List.drop_eq_getElem_cons hi]
    have hget : tokens[i]? = some tokens[i] := List.getElem?_eq_getElem hi
    by_cases hcond : (v2.length : Int) ≤ tokens[i]
    · have hes : elemStep f tokens v1 v2 i acc = some none := by
        simp [elemStep, hget, if_pos hcond]
      simp [remLoop, hes, goLoop, if_pos hcond]
    · rcases hv : v1.drop i with _ | ⟨w, ws2⟩
      · have hv1 : v1[i]? = none := by
          have hd := List.getElem?_drop v1 i 0
          rw [hv] at hd
          simpa using hd.symm
        have hes : elemStep f tokens v1 v2 i acc = none := by
          cases hrd : readDense v2 tokens[i] <;>
            simp [elemStep, hget, if_neg hcond, hv1, hrd]
        cases hrd : readDense v2 tokens[i] <;>
          simp [remLoop, hes, goLoop, if_neg hcond, hrd]
      · have hv1 : v1[i]? = some w := by
          have hd := List.getElem?_drop v1 i 0
          rw [hv] at hd
          simpa using hd.symm
        have hws2 : ws2 = v1.drop (i + 1) := by
          have ht : (v1.drop i).tail = v1.drop (i + 1) := List.tail_drop v1 i
          rw [hv] at ht
          simpa using ht
        cases hrd : readDense v2 tokens[i] with
        | none =>
          have hes : elemStep f tokens v1 v2 i acc = none := by
            simp [elemStep, hget, if_neg hcond, hv1, hrd]
          simp [remLoop, hes, goLoop, if_neg hcond, hrd]
        | some d =>
          have hes : elemStep f tokens v1 v2 i acc = some (some (f acc w d)) := by
            simp [elemStep, hget, if_neg hcond, hv1, hrd]
          have hL : remLoop f tokens v1 v2 (n + 1) i acc
              = remLoop f tokens v1 v2 n (i + 1) (f acc w d) := by
            simp [remLoop, hes]
          have hR : goLoop f v2 (tokens[i] :: tokens.drop (i + 1)) (w :: ws2) acc
              = goLoop f v2 (tokens.drop (i + 1)) ws2 (f acc w d) := by
            simp [goLoop, if_neg hcond, hrd]
          rw [hL, hR, hws2]
          exact ih (i + 1) (f acc w d) (by omega)

lemma remLoop_succ_none {α : Type} (f : α → α → α → α)
    (tokens : List Int) (v1 v2 : List α) {i : Nat} {acc : α}
    (hi : i < tokens.length)
    (h : elemStep f tokens v1 v2 i acc = none) :
    remLoop f tokens v1 v2 (tokens.length - i) i acc = none := by
  obtain ⟨k, hk⟩ : ∃ k, tokens.length - i = k + 1 := ⟨tokens.length - (i + 1), by omega⟩
  rw [hk]
  simp [remLoop, h]

lemma remLoop_succ_break {α : Type} (f : α → α → α → α)
    (tokens : List Int) (v1 v2 : List α) {i : Nat} {acc : α}
    (hi : i < tokens.length)
    (h : elemStep f tokens v1 v2 i acc = some none) :
    remLoop f tokens v1 v2 (tokens.length - i) i acc = some acc := by
  obtain ⟨k, hk⟩ : ∃ k, tokens.length - i = k + 1 := ⟨tokens.length - (i + 1), by omega⟩
  rw [hk]
  simp [remLoop, h]

lemma remLoop_succ_cont {α : Type} (f : α → α → α → α)
    (tokens : List Int) (v1 v2 : List α) {i : Nat} {acc a1 : α}
    (hi : i < tokens.length)
    (h : elemStep f tokens v1 v2 i acc = some (some a1)) :
    remLoop f tokens v1 v2 (tokens.length - i) i acc =
      remLoop f tokens v1 v2 (tokens.length - (i + 1)) (i + 1) a1 := by
  obtain ⟨k, hk⟩ : ∃ k, tokens.length - i = k + 1 := ⟨tokens.length - (i + 1), by omega⟩
  have hk2 : tokens.length - (i + 1) = k := by omega
  rw [hk, hk2]
  simp [remLoop, h]

lemma mainLoop_fusion {α : Type} (f : α → α → α → α)
    (tokens : List Int) (v1 v2 : List α) :
    ∀ (b i : Nat) (acc : α), i + 4 * b ≤ tokens.length →
      (mainLoop f tokens v1 v2 b i acc).bind
        (fun p => remLoop f tokens v1 v2 (tokens.length - p.1) p.1 p.2)
      = remLoop f tokens v1 v2 (tokens.length - i) i acc := by
  intro b
  induction b with
  | zero => intro i acc _; rfl
  | succ b ih =>
    intro i acc hb
    cases h1 : elemStep f tokens v1 v2 i acc with
    | none =>
      rw [remLoop_succ_none f tokens v1 v2 (by omega) h1]
      simp [mainLoop, h1]
    | some o1 =>
      cases o1 with
      | none =>
        rw [remLoop_succ_break f tokens v1 v2 (by omega) h1]
        simp [mainLoop, h1, remLoop_succ_break f tokens v1 v2 (by omega) h1]
      | some a1 =>
        rw [remLoop_succ_cont f tokens v1 v2 (by omega) h1]
        cases h2 : elemStep f tokens v1 v2 (i + 1) a1 with
        | none =>
          rw [remLoop_succ_none f tokens v1 v2 (by omega) h2]
          simp [mainLoop, h1, h2]
        | some o2 =>
          cases o2 with
          | none =>
            rw [remLoop_succ_break f tokens v1 v2 (by omega) h2]
            simp [mainLoop, h1, h2,
              remLoop_succ_cont f tokens v1 v2 (by omega) h1,
              remLoop_succ_break f tokens v1 v2 (by omega) h2]
          | some a2 =>
            rw [remLoop_succ_cont f tokens v1 v2 (by omega) h2]
            cases h3 : elemStep f tokens v1 v2 (i + 2) a2 with
            | none =>
              rw [show i + 1 + 1 = i + 2 from rfl] at *
              rw [remLoop_succ_none f tokens v1 v2 (by omega) h3]
              simp [mainLoop, h1, h2, h3]
            | some o3 =>
              cases o3 with
              | none =>
                rw [show i + 1 + 1 = i + 2 from rfl] at *
                rw [remLoop_succ_break f tokens v1 v2 (by omega) h3]
                simp [mainLoop, h1, h2, h3,
                  remLoop_succ_cont f tokens v1 v2 (by omega) h1,
                  remLoop_succ_cont f tokens v1 v2 (by omega) h2,
                  remLoop_succ_break f tokens v1 v2 (by omega) h3]
              | some a3 =>
                rw [show i + 1 + 1 = i + 2 from rfl] at *
                rw [remLoop_succ_cont f tokens v1 v2 (by omega) h3]
                cases h4 : elemStep f tokens v1 v2 (i + 3) a3 with
                | none =>
                  rw [show i + 2 + 1 = i + 3 from rfl] at *
                  rw [remLoop_succ_none f tokens v1 v2 (by omega) h4]
                  simp [mainLoop, h1, h2, h3, h4]
                | some o4 =>
                  cases o4 with
                  | none =>
                    rw [show i + 2 + 1 = i + 3 from rfl] at *
                    rw [remLoop_succ_break f tokens v1 v2 (by omega) h4]
                    simp [mainLoop, h1, h2, h3, h4,
                      remLoop_succ_cont f tokens v1 v2 (by omega) h1,
                      remLoop_succ_cont f tokens v1 v2 (by omega) h2,
                      remLoop_succ_cont f tokens v1 v2 (by omega) h3,
                      remLoop_succ_break f tokens v1 v2 (by omega) h4]
                  | some a4 =>
                    rw [show i + 2 + 1 = i + 3 from rfl] at *
                    rw [remLoop_succ_cont f tokens v1 v2 (by omega) h4]
                    rw [show (i : Nat) + 3 + 1 = i + 4 from rfl] at *
                    rw [← ih (i + 4) a4 (by omega)]
                    simp [mainLoop, h1, h2, h3, h4]

lemma sparse_kernel_eq_goLoop {α : Type} (f : α → α → α → α) (z : α)
    (tokens : List Int) (v1 v2 : List α) :
    sparse_kernel f z tokens v1 v2 =
      if tokens.length = 0 ∨ v2.length = 0 then some z
      else goLoop f v2 tokens v1 z := by
  unfold sparse_kernel
  by_cases h : tokens.length = 0 ∨ v2.length = 0
  · rw [if_pos h, if_pos h]
  · rw [if_neg h, if_neg h]
    have hfus := mainLoop_fusion f tokens v1 v2
      ((tokens.length - tokens.length % 4) / 4) 0 z (by omega)
    have hgo := remLoop_eq_goLoop f tokens v1 v2 (tokens.length - 0) 0 z rfl
    rw [List.drop_zero, List.drop_zero] at hgo
    rw [← hgo, ← hfus]
    show (match mainLoop f tokens v1 v2 ((tokens.length - tokens.length % 4) / 4) 0 z with
      | none => none
      | some (i, acc) => remLoop f tokens v1 v2 (tokens.length - i) i acc) = _
    cases mainLoop f tokens v1 v2 ((tokens.length - tokens.length % 4) / 4) 0 z with
    | none => rfl
    | some p => rfl

/-! ## Facts about readDense -/

lemma readDense_eq_getD {α : Type} (v2 : List α) (t : Int) (z : α)
    (h0 : 0 ≤ t) (hlt : t < (v2.length : Int)) :
    readDense v2 t = some (v2.getD t.toNat z) := by
  have hn : t.toNat < v2.length := by omega
  rw [readDense, if_neg (by omega), List.getD_eq_getElem v2 z hn,
    List.get?_eq_getElem? v2 t.toNat, List.getElem?_eq_getElem hn]

lemma readDense_mem {α : Type} {v2 : List α} {t : Int} {d : α}
    (h : readDense v2 t = some d) : d ∈ v2 := by
  rw [readDense] at h
  split at h
  · exact absurd h (by simp)
  · exact List.get?_mem h

/-! ## The unrolled scalar kernel equals the naive reference loop -/

lemma referenceGo_eq_goLoop (v2 : List ℚ) :
    ∀ (ts : List Int) (ws : List ℚ) (acc : ℚ),
      referenceGo v2 ts ws acc = goLoop qstep v2 ts ws acc := by
  intro ts
  induction ts with
  | nil => intro ws acc; rfl
  | cons t ts ih =>
    intro ws acc
    by_cases hcond : (v2.length : Int) ≤ t
    · simp [referenceGo, goLoop, if_pos hcond]
    · rcases ws with _ | ⟨w, ws2⟩
      · cases hrd : readDense v2 t <;>
          simp [referenceGo, goLoop, if_neg hcond, hrd]
      · cases hrd : readDense v2 t with
        | none => simp [referenceGo, goLoop, if_neg hcond, hrd]
        | some d => simp [referenceGo, goLoop, if_neg hcond, hrd, qstep, ih]

/-- C3: the manually unrolled scalar float kernel is extensionally equal
to the naive reference loop that visits one element at a time and stops
at the first `tokens[i] >= v2_size` — for every input whatsoever (hence
in particular for `v1_size` 4, 5, 6, 7 and 8, every residue of `v1_size`
modulo 4), a termination triggered at any of the four unrolled positions
advances past exactly the elements already accumulated, so no element is
skipped or double-counted relative to the reference loop. -/
theorem unrolled_kernel_eq_reference (tokens : List Int) (v1 v2 : List ℚ) :
    sparse_dot_product_native tokens v1 v2 = referenceDot tokens v1 v2 := by
  rw [sparse_dot_product_native, sparse_kernel_eq_goLoop, referenceDot]
  by_cases h : tokens.length = 0 ∨ v2.length = 0
  · rw [if_pos h, if_pos h]
  · rw [if_neg h, if_neg h, referenceGo_eq_goLoop]

/-! ## The value computed by the early-termination loop -/

lemma goLoop_prefixSum (v2 : List ℚ) :
    ∀ (ts : List Int) (ws : List ℚ) (acc : ℚ),
      ts.length ≤ ws.length →
      (∀ t ∈ ts.takeWhile (fun x => x < (v2.length : Int)), 0 ≤ t) →
      goLoop qstep v2 ts ws acc = some (acc + specPrefixSum ts ws v2) := by
  intro ts
  induction ts with
  | nil => intro ws acc _ _; simp [goLoop, specPrefixSum]
  | cons t ts ih =>
    intro ws acc hlen hnn
    rcases ws with _ | ⟨w, ws2⟩
    · simp at hlen
    · by_cases hcond : (v2.length : Int) ≤ t
      · have htw : (t :: ts).takeWhile (fun x => x < (v2.length : Int)) = [] := by
          simp [List.takeWhile_cons, not_lt.mpr hcond]
        simp [goLoop, if_pos hcond, specPrefixSum, List.takeWhile_cons,
          not_lt.mpr hcond]
      · have hlt : t < (v2.length : Int) := lt_of_not_le hcond
        have htw : (t :: ts).takeWhile (fun x => x < (v2.length : Int))
            = t :: ts.takeWhile (fun x => x < (v2.length : Int)) := by
          simp [List.takeWhile_cons, hlt]
        have h0 : 0 ≤ t := hnn t (by rw [htw]; exact List.mem_cons_self t _)
        have hnn2 : ∀ x ∈ ts.takeWhile (fun x => x < (v2.length : Int)), 0 ≤ x := by
          intro x hx
          exact hnn x (by rw [htw]; exact List.mem_cons_of_mem t hx)
        have hrd := readDense_eq_getD v2 t 0 h0 hlt
        have hrec := ih ws2 (acc + w * v2.getD t.toNat 0) (by simpa using hlen) hnn2
        simp only [goLoop, if_neg hcond, hrd]
        rw [show qstep acc w (v2.getD t.toNat 0) = acc + w * v2.getD t.toNat 0 from rfl]
        rw [hrec]
        have hsum : specPrefixSum (t :: ts) (w :: ws2) v2
            = w * v2.getD t.toNat 0 + specPrefixSum ts ws2 v2 := by
          simp [specPrefixSum, List.takeWhile_cons, hlt]
        rw [hsum]
        congr 1
        ring

/-- C1: for every nonempty input whose tokens (before the early stop) are
valid indices, the scalar float kernel returns exactly the sum of
`values1[i] * values2[tokens[i]]` over the longest prefix of
`[0, v1_size)` in which every `tokens[i] < v2_size`; all entries from
the first out-of-range token onward are skipped.  In particular, for
`tokens = [0, 1, 10000, 2]` with any dense vector of length 100 and
weights `[1,1,1,1]` the result is `dense[0] + dense[1]`. -/
theorem native_prefix_semantics :
    (∀ (tokens : List Int) (v1 v2 : List ℚ),
        v1.length = tokens.length →
        (∀ t ∈ tokens.takeWhile (fun x => x < (v2.length : Int)), 0 ≤ t) →
        tokens ≠ [] → v2 ≠ [] →
        sparse_dot_product_native tokens v1 v2 = some (specPrefixSum tokens v1 v2))
    ∧ ∀ dense : List ℚ, dense.length = 100 →
        sparse_dot_product_native [0, 1, 10000, 2] [1, 1, 1, 1] dense
          = some (dense.getD 0 0 + dense.getD 1 0) := by
  have hmain : ∀ (tokens : List Int) (v1 v2 : List ℚ),
      v1.length = tokens.length →
      (∀ t ∈ tokens.takeWhile (fun x => x < (v2.length : Int)), 0 ≤ t) →
      tokens ≠ [] → v2 ≠ [] →
      sparse_dot_product_native tokens v1 v2 = some (specPrefixSum tokens v1 v2) := by
    intro tokens v1 v2 hlen hnn ht hv
    rw [sparse_dot_product_native, sparse_kernel_eq_goLoop,
      if_neg (by simp [ht, hv, List.length_eq_zero])]
    rw [goLoop_prefixSum v2 tokens v1 0 (by omega) hnn]
    rw [zero_add]
  refine ⟨hmain, ?_⟩
  intro dense hlen
  rw [hmain [0, 1, 10000, 2] [1, 1, 1, 1] dense rfl
    (by rw [hlen]; decide) (by decide) (by rintro rfl; simp at hlen)]
  have : specPrefixSum [0, 1, 10000, 2] [1, 1, 1, 1] dense
      = dense.getD 0 0 + dense.getD 1 0 := by
    rw [specPrefixSum, hlen]
    norm_num [List.takeWhile_cons]
  rw [this]

theorem native_prefix_semantics_witness :
    sparse_dot_product_native [0] [1] [2]
      = some (specPrefixSum [0] [1] [2]) :=
  native_prefix_semantics.1 [0] [1] [2] rfl (by decide) (by decide) (by decide)

/-! ## One-sided token bound: nonnegative tokens stay in bounds,
negative tokens read out of bounds -/

lemma goLoop_isSome {α : Type} (f : α → α → α → α) (v2 : List α) :
    ∀ (ts : List Int) (ws : List α) (acc : α),
      ts.length ≤ ws.length →
      (∀ t ∈ ts.takeWhile (fun x => x < (v2.length : Int)), 0 ≤ t) →
      ∃ r, goLoop f v2 ts ws acc = some r := by
  intro ts
  induction ts with
  | nil => intro ws acc _ _; exact ⟨acc, rfl⟩
  | cons t ts ih =>
    intro ws acc hlen hnn
    rcases ws with _ | ⟨w, ws2⟩
    · simp at hlen
    · by_cases hcond : (v2.length : Int) ≤ t
      · exact ⟨acc, by simp [goLoop, if_pos hcond]⟩
      · have hlt : t < (v2.length : Int) := lt_of_not_le hcond
        have htw : (t :: ts).takeWhile (fun x => x < (v2.length : Int))
            = t :: ts.takeWhile (fun x => x < (v2.length : Int)) := by
          simp [List.takeWhile_cons, hlt]
        have h0 : 0 ≤ t := hnn t (by rw [htw]; exact List.mem_cons_self t _)
        have hnn2 : ∀ x ∈ ts.takeWhile (fun x => x < (v2.length : Int)), 0 ≤ x := by
          intro x hx
          exact hnn x (by rw [htw]; exact List.mem_cons_of_mem t hx)
        have hrd := readDense_eq_getD v2 t (w) h0 hlt
        obtain ⟨r, hr⟩ := ih ws2 (f acc w (v2.getD t.toNat w)) (by simpa using hlen) hnn2
        refine ⟨r, ?_⟩
        simp only [goLoop, if_neg hcond, hrd]
        exact hr

/-- C10: the scalar kernels' only bounds test on a token is the
one-sided `tokens[i] >= v2_size`, so a negative token passes it and the
dense vector is read at a negative index.  Under the precondition that
every token consumed before early termination is nonnegative, every
dense access is in `[0, v2_size)` and the out-of-bounds (`none`) branch
of the embedding is unreachable; an input containing a negative token
makes an out-of-bounds access. -/
theorem one_sided_token_bound :
    (∀ (tokens : List Int) (v1 v2 : List ℚ),
        v1.length = tokens.length →
        (∀ t ∈ tokens.takeWhile (fun x => x < (v2.length : Int)), 0 ≤ t) →
        ∃ r, sparse_dot_product_native tokens v1 v2 = some r)
    ∧ (∀ tokens v1 v2 : List Int,
        v1.length = tokens.length →
        (∀ t ∈ tokens.takeWhile (fun x => x < (v2.length : Int)), 0 ≤ t) →
        ∃ r, sparse_dot_product_native_int8 tokens v1 v2 = some r)
    ∧ sparse_dot_product_native [-1] [1] [1, 1, 1] = none
    ∧ sparse_dot_product_native_int8 [-1] [1] [1, 1, 1] = none := by
  refine ⟨?_, ?_, by decide, by decide⟩
  · intro tokens v1 v2 hlen hnn
    rw [sparse_dot_product_native, sparse_kernel_eq_goLoop]
    by_cases h : tokens.length = 0 ∨ v2.length = 0
    · exact ⟨0, by rw [if_pos h]⟩
    · rw [if_neg h]
      exact goLoop_isSome qstep v2 tokens v1 0 (by omega) hnn
  · intro tokens v1 v2 hlen hnn
    rw [sparse_dot_product_native_int8, sparse_kernel_eq_goLoop]
    by_cases h : tokens.length = 0 ∨ v2.length = 0
    · exact ⟨0, by rw [if_pos h]⟩
    · rw [if_neg h]
      exact goLoop_isSome istep v2 tokens v1 0 (by omega) hnn

theorem one_sided_token_bound_witness :
    (∃ r, sparse_dot_product_native [0, 5] [1, 1] [2, 3] = some r)
    ∧ sparse_dot_product_native [-1] [1] [1, 1, 1] = none :=
  ⟨one_sided_token_bound.1 [0, 5] [1, 1] [2, 3] rfl (by decide),
    one_sided_token_bound.2.2.1⟩

/-! ## Degenerate inputs -/

/-- C4: whenever `v1_size == 0` or `v2_size == 0`, each of the three
kernels takes the early-exit branch and returns exactly zero. -/
theorem degenerate_inputs_zero :
    ∀ (tokens : List Int) (v1f v2f : List ℚ) (v1i v2i : List Int),
      (tokens.length = 0 ∨ v2f.length = 0 →
        sparse_dot_product_native tokens v1f v2f = some 0
        ∧ sparse_dot_product_simd tokens v1f v2f = some 0)
      ∧ (tokens.length = 0 ∨ v2i.length = 0 →
        sparse_dot_product_native_int8 tokens v1i v2i = some 0) := by
  intro tokens v1f v2f v1i v2i
  constructor
  · intro h
    constructor
    · rw [sparse_dot_product_native, sparse_kernel, if_pos h]
    · rw [sparse_dot_product_simd, if_pos h]
  · intro h
    rw [sparse_dot_product_native_int8, sparse_kernel, if_pos h]

theorem degenerate_inputs_zero_witness :
    (sparse_dot_product_native [] [] [1, 2] = some 0
      ∧ sparse_dot_product_simd [] [] [1, 2] = some 0)
    ∧ sparse_dot_product_native_int8 [0] [3] [] = some 0 :=
  ⟨(degenerate_inputs_zero [] [] [1, 2] [3] []).1 (Or.inl rfl),
    (degenerate_inputs_zero [0] [] [1, 2] [3] []).2 (Or.inr rfl)⟩

/-! ## The int8 kernel's 32-bit accumulator -/

lemma wrap32_eq_self {x : Int} (h : x.natAbs ≤ 2 ^ 31 - 1) : wrap32 x = x := by
  rw [wrap32]
  omega

lemma goLoop_istep_eq_exact (v2 : List Int) (hd : ∀ d ∈ v2, d.natAbs ≤ 128) :
    ∀ (ts : List Int) (ws : List Int) (acc : Int),
      (∀ w ∈ ws, w.natAbs ≤ 128) →
      acc.natAbs + ts.length * 16384 ≤ 2 ^ 31 - 1 →
      goLoop istep v2 ts ws acc = goLoop istepExact v2 ts ws acc := by
  intro ts
  induction ts with
  | nil => intro ws acc _ _; rfl
  | cons t ts ih =>
    intro ws acc hw hacc
    by_cases hcond : (v2.length : Int) ≤ t
    · simp [goLoop, if_pos hcond]
    · rcases ws with _ | ⟨w, ws2⟩
      · cases hrd : readDense v2 t <;> simp [goLoop, if_neg hcond, hrd]
      · cases hrd : readDense v2 t with
        | none => simp [goLoop, if_neg hcond, hrd]
        | some d =>
          have hwb : w.natAbs ≤ 128 := hw w (List.mem_cons_self w ws2)
          have hdb : d.natAbs ≤ 128 := hd d (readDense_mem hrd)
          have hprod : (w * d).natAbs ≤ 16384 := by
            rw [Int.natAbs_mul]
            calc w.natAbs * d.natAbs ≤ 128 * 128 := Nat.mul_le_mul hwb hdb
              _ = 16384 := rfl
          have habs : (acc + w * d).natAbs ≤ acc.natAbs + 16384 :=
            le_trans (Int.natAbs_add_le acc (w * d)) (by omega)
          have hstep : istep acc w d = istepExact acc w d := by
            rw [istep, istepExact]
            exact wrap32_eq_self (by simp at hacc; omega)
          simp only [goLoop, if_neg hcond, hrd, hstep]
          exact ih ws2 (istepExact acc w d)
            (fun x hx => hw x (List.mem_cons_of_mem w hx))
            (by rw [istepExact]; simp at hacc ⊢; omega)

lemma goLoop_exact_bound (v2 : List Int) (hd : ∀ d ∈ v2, d.natAbs ≤ 128) :
    ∀ (ts : List Int) (ws : List Int) (acc r : Int),
      (∀ w ∈ ws, w.natAbs ≤ 128) →
      goLoop istepExact v2 ts ws acc = some r →
      r.natAbs ≤ acc.natAbs + ts.length * 16384 := by
  intro ts
  induction ts with
  | nil =>
    intro ws acc r _ h
    simp only [goLoop, Option.some.injEq] at h
    subst h
    simp
  | cons t ts ih =>
    intro ws acc r hw h
    by_cases hcond : (v2.length : Int) ≤ t
    · simp only [goLoop, if_pos hcond, Option.some.injEq] at h
      subst h
      simp only [List.length_cons]
      omega
    · rcases ws with _ | ⟨w, ws2⟩
      · cases hrd : readDense v2 t <;> simp [goLoop, if_neg hcond, hrd] at h
      · cases hrd : readDense v2 t with
        | none => simp [goLoop, if_neg hcond, hrd] at h
        | some d =>
          have hwb : w.natAbs ≤ 128 := hw w (List.mem_cons_self w ws2)
          have hdb : d.natAbs ≤ 128 := hd d (readDense_mem hrd)
          have hprod : (w * d).natAbs ≤ 16384 := by
            rw [Int.natAbs_mul]
            calc w.natAbs * d.natAbs ≤ 128 * 128 := Nat.mul_le_mul hwb hdb
              _ = 16384 := rfl
          have habs : (acc + w * d).natAbs ≤ acc.natAbs + 16384 :=
            le_trans (Int.natAbs_add_le acc (w * d)) (by omega)
          simp only [goLoop, if_neg hcond, hrd] at h
          have := ih ws2 (istepExact acc w d) r
            (fun x hx => hw x (List.mem_cons_of_mem w hx)) h
          rw [istepExact] at this
          simp
          omega

/-- C5: the quantized kernel accumulates in a 32-bit integer, and for
every input of at most 10,000 products of int8 operands (magnitude at
most 128) the wrapped accumulation never leaves the 32-bit range, so the
kernel's result coincides with the exact mathematical sum — no
wraparound and no overflow-induced sign flip — and that exact result is
bounded by 10,000 · 128 · 128. -/
theorem int8_accumulator_exact :
    ∀ tokens v1 v2 : List Int,
      tokens.length ≤ 10000 →
      (∀ w ∈ v1, w.natAbs ≤ 128) →
      (∀ d ∈ v2, d.natAbs ≤ 128) →
      sparse_dot_product_native_int8 tokens v1 v2
        = sparse_dot_product_int8_exact tokens v1 v2
      ∧ ∀ r, sparse_dot_product_int8_exact tokens v1 v2 = some r →
          r.natAbs ≤ 163840000 := by
  intro tokens v1 v2 hlen hw hd
  rw [sparse_dot_product_native_int8, sparse_dot_product_int8_exact,
    sparse_kernel_eq_goLoop, sparse_kernel_eq_goLoop]
  by_cases h : tokens.length = 0 ∨ v2.length = 0
  · rw [if_pos h, if_pos h]
    exact ⟨rfl, fun r hr => by simp at hr; simp [← hr]⟩
  · rw [if_neg h, if_neg h]
    constructor
    · exact goLoop_istep_eq_exact v2 hd tokens v1 0 hw
        (by simp; calc tokens.length * 16384 ≤ 10000 * 16384 :=
              Nat.mul_le_mul_right 16384 hlen
            _ ≤ 2 ^ 31 - 1 := by norm_num)
    · intro r hr
      have := goLoop_exact_bound v2 hd tokens v1 0 r hw hr
      simp at this
      calc r.natAbs ≤ tokens.length * 16384 := this
        _ ≤ 10000 * 16384 := Nat.mul_le_mul_right 16384 hlen
        _ = 163840000 := rfl

theorem int8_accumulator_exact_witness :
    sparse_dot_product_native_int8 [0, 1] [127, 127] [127, -128]
      = sparse_dot_product_int8_exact [0, 1] [127, 127] [127, -128] :=
  (int8_accumulator_exact [0, 1] [127, 127] [127, -128]
    (by decide) (by decide) (by decide)).1

/-! ## The SIMD kernel versus the scalar kernel -/

lemma dotQ_nil (v2 : List ℚ) (ws : List ℚ) : dotQ v2 [] ws = 0 := by
  simp [dotQ]

lemma dotQ_append (v2 : List ℚ) (ts1 ts2 : List Int) (ws1 ws2 : List ℚ)
    (h : ts1.length = ws1.length) :
    dotQ v2 (ts1 ++ ts2) (ws1 ++ ws2) = dotQ v2 ts1 ws1 + dotQ v2 ts2 ws2 := by
  rw [dotQ, dotQ, dotQ, List.zipWith_append _ _ _ _ _ h, List.sum_append]

lemma goLoop_inRange_sum (v2 : List ℚ) :
    ∀ (ts : List Int) (ws : List ℚ) (acc : ℚ),
      ts.length ≤ ws.length →
      (∀ t ∈ ts, 0 ≤ t ∧ t < (v2.length : Int)) →
      goLoop qstep v2 ts ws acc = some (acc + dotQ v2 ts ws) := by
  intro ts
  induction ts with
  | nil => intro ws acc _ _; simp [goLoop, dotQ]
  | cons t ts ih =>
    intro ws acc hlen hin
    rcases ws with _ | ⟨w, ws2⟩
    · simp at hlen
    · obtain ⟨h0, hlt⟩ := hin t (List.mem_cons_self t ts)
      have hrd := readDense_eq_getD v2 t 0 h0 hlt
      have hrec := ih ws2 (acc + w * v2.getD t.toNat 0) (by simpa using hlen)
        (fun x hx => hin x (List.mem_cons_of_mem t hx))
      simp only [goLoop, if_neg (not_le.mpr hlt), hrd]
      rw [show qstep acc w (v2.getD t.toNat 0) = acc + w * v2.getD t.toNat 0 from rfl]
      rw [hrec]
      have : dotQ v2 (t :: ts) (w :: ws2) = w * v2.getD t.toNat 0 + dotQ v2 ts ws2 := by
        simp [dotQ]
      rw [this]
      congr 1
      ring

lemma loadK_eq {α : Type} (v1 : List α) :
    ∀ (k i : Nat), i + k ≤ v1.length →
      loadK v1 i k = some ((v1.drop i).take k) := by
  intro k
  induction k with
  | zero => intro i _; simp [loadK]
  | succ k ih =>
    intro i h
    have hi : i < v1.length := by omega
    rw [List.drop_eq_getElem_cons hi]
    have hv1 : v1.get? i = some v1[i] := by
      rw [List.get?_eq_getElem?, List.getElem?_eq_getElem hi]
    simp only [loadK, hv1, ih (i + 1) (by omega), List.take_succ_cons]

lemma gatherTemp_eq (tokens : List Int) (v2 : List ℚ)
    (hin : ∀ t ∈ tokens, 0 ≤ t ∧ t < (v2.length : Int)) :
    ∀ (k i : Nat), i + k ≤ tokens.length →
      gatherTemp tokens v2 i k
        = some (((tokens.drop i).take k).map fun t => v2.getD t.toNat 0) := by
  intro k
  induction k with
  | zero => intro i _; simp [gatherTemp]
  | succ k ih =>
    intro i h
    have hi : i < tokens.length := by omega
    have hv1 : tokens.get? i = some tokens[i] := by
      rw [List.get?_eq_getElem?, List.getElem?_eq_getElem hi]
    obtain ⟨h0, hlt⟩ := hin tokens[i] (List.getElem_mem hi)
    have hrd := readDense_eq_getD v2 tokens[i] 0 h0 hlt
    rw [List.drop_eq_getElem_cons hi]
    simp only [gatherTemp, hv1, if_pos hlt, hrd, ih (i + 1) (by omega),
      List.take_succ_cons, List.map_cons]

lemma simdLoop_sum (tokens : List Int) (v1 v2 : List ℚ)
    (hlen : v1.length = tokens.length)
    (hin : ∀ t ∈ tokens, 0 ≤ t ∧ t < (v2.length : Int)) :
    ∀ (b i : Nat) (lanes : List ℚ),
      i + 8 * b ≤ tokens.length → lanes.length = 8 →
      ∃ lanes2, simdLoop tokens v1 v2 b i lanes = some lanes2
        ∧ lanes2.sum = lanes.sum
            + dotQ v2 ((tokens.drop i).take (8 * b)) ((v1.drop i).take (8 * b)) := by
  intro b
  induction b with
  | zero =>
    intro i lanes _ _
    refine ⟨lanes, rfl, ?_⟩
    simp [dotQ]
  | succ b ih =>
    intro i lanes hb hl
    have h8 : i + 8 ≤ tokens.length := by omega
    have hload := loadK_eq v1 8 i (by omega)
    have hgat := gatherTemp_eq tokens v2 hin 8 i (by omega)
    have hws : ((v1.drop i).take 8).length = 8 := by
      rw [List.length_take, List.length_drop]
      omega
    have hts : ((tokens.drop i).take 8).length = 8 := by
      rw [List.length_take, List.length_drop]
      omega
    set ws8 := (v1.drop i).take 8 with hws8
    set ts8 := (tokens.drop i).take 8 with hts8
    set temp := ts8.map fun t => v2.getD t.toNat 0 with htemp
    have hmul : List.zipWith (· * ·) ws8 temp
        = List.zipWith (fun t w => w * v2.getD t.toNat 0) ts8 ws8 := by
      rw [htemp, List.zipWith_map_right, List.zipWith_comm]
    have hmullen : (List.zipWith (· * ·) ws8 temp).length = 8 := by
      rw [List.length_zipWith, htemp, List.length_map, hws, hts]
      simp
    have hlanes2len : (List.zipWith (· + ·) lanes (List.zipWith (· * ·) ws8 temp)).length = 8 := by
      rw [List.length_zipWith, hl, hmullen]
      simp
    obtain ⟨lanes2, hrun, hsum⟩ := ih (i + 8)
      (List.zipWith (· + ·) lanes (List.zipWith (· * ·) ws8 temp))
      (by omega) hlanes2len
    refine ⟨lanes2, ?_, ?_⟩
    · simp only [simdLoop, hload, hgat, ← hws8, ← hts8, ← htemp]
      exact hrun
    · rw [hsum]
      have hsplit : (List.zipWith (· + ·) lanes (List.zipWith (· * ·) ws8 temp)).sum
          = lanes.sum + (List.zipWith (· * ·) ws8 temp).sum :=
        (List.sum_add_sum_eq_sum_zipWith_of_length_eq lanes
          (List.zipWith (· * ·) ws8 temp) (by omega)).symm
      rw [hsplit, hmul]
      have hdq : (List.zipWith (fun t w => w * v2.getD t.toNat 0) ts8 ws8).sum
          = dotQ v2 ts8 ws8 := rfl
      rw [hdq]
      have htake : (tokens.drop i).take (8 * (b + 1))
          = ts8 ++ ((tokens.drop (i + 8)).take (8 * b)) := by
        rw [show 8 * (b + 1) = 8 + 8 * b by ring, List.take_add, hts8,
          List.drop_drop]
      have htakev : (v1.drop i).take (8 * (b + 1))
          = ws8 ++ ((v1.drop (i + 8)).take (8 * b)) := by
        rw [show 8 * (b + 1) = 8 + 8 * b by ring, List.take_add, hws8,
          List.drop_drop]
      rw [htake, htakev, dotQ_append v2 _ _ _ _ (by rw [hts, hws])]
      ring

/-- C2: the SIMD kernel processes whole groups of 8 by gathering
`values2[tokens[i+j]]` per lane, substituting zero for an out-of-range
lane and continuing the group, and only the remainder after the last
whole group uses the scalar stop-at-first rule.  Hence on inputs whose
tokens are all in range it computes the same sum as the scalar kernel,
while an out-of-range token inside a whole group followed by in-range
tokens makes the two kernels differ. -/
theorem simd_group_semantics :
    (∀ (tokens : List Int) (v1 v2 : List ℚ),
        v1.length = tokens.length →
        (∀ t ∈ tokens, 0 ≤ t ∧ t < (v2.length : Int)) →
        sparse_dot_product_simd tokens v1 v2 = sparse_dot_product_native tokens v1 v2)
    ∧ sparse_dot_product_simd [0, 1, 10000, 2, 0, 0, 0, 0]
        [1, 1, 1, 1, 1, 1, 1, 1] [1, 2, 4]
      ≠ sparse_dot_product_native [0, 1, 10000, 2, 0, 0, 0, 0]
        [1, 1, 1, 1, 1, 1, 1, 1] [1, 2, 4] := by
  constructor
  · intro tokens v1 v2 hlen hin
    rw [sparse_dot_product_native, sparse_kernel_eq_goLoop]
    by_cases h : tokens.length = 0 ∨ v2.length = 0
    · rw [sparse_dot_product_simd, if_pos h, if_pos h]
    · rw [sparse_dot_product_simd, if_neg h, if_neg h]
      have hlimle : tokens.length - tokens.length % 8 ≤ tokens.length := by omega
      set limit := tokens.length - tokens.length % 8 with hlim
      obtain ⟨lanes2, hrun, hsum⟩ := simdLoop_sum tokens v1 v2 hlen hin (limit / 8) 0
        (List.replicate 8 0) (by omega) (by simp)
      have hml : 8 * (limit / 8) = limit := by omega
      rw [hml] at hsum
      simp only [List.drop_zero] at hsum
      show (match simdLoop tokens v1 v2 (limit / 8) 0 (List.replicate 8 0) with
        | none => none
        | some lanes =>
            remLoop qstep tokens v1 v2 (tokens.length - limit) limit lanes.sum) = _
      rw [hrun]
      show remLoop qstep tokens v1 v2 (tokens.length - limit) limit lanes2.sum = _
      rw [remLoop_eq_goLoop qstep tokens v1 v2 (tokens.length - limit) limit lanes2.sum rfl]
      rw [goLoop_inRange_sum v2 (tokens.drop limit) (v1.drop limit) lanes2.sum
        (by rw [List.length_drop, List.length_drop]; omega)
        (fun x hx => hin x (List.drop_subset limit tokens hx))]
      rw [goLoop_inRange_sum v2 tokens v1 0 (by omega) hin]
      rw [hsum]
      have hz : (List.replicate 8 (0 : ℚ)).sum = 0 := by simp
      rw [hz]
      have hsplit : dotQ v2 tokens v1
          = dotQ v2 (tokens.take limit) (v1.take limit)
            + dotQ v2 (tokens.drop limit) (v1.drop limit) := by
        rw [← dotQ_append v2 _ _ _ _ (by rw [List.length_take, List.length_take]; omega)]
        rw [List.take_append_drop, List.take_append_drop]
      rw [hsplit]
      congr 1
      ring
  · have hsimd : sparse_dot_product_simd [0, 1, 10000, 2, 0, 0, 0, 0]
        [1, 1, 1, 1, 1, 1, 1, 1] [1, 2, 4] = some 11 := by
      norm_num [sparse_dot_product_simd, simdLoop, loadK, gatherTemp, readDense,
        remLoop, elemStep, qstep, Int.toNat_ofNat, List.replicate, List.zipWith,
        List.sum_cons, show (2 : Int).toNat = 2 from rfl]
    have hnat : sparse_dot_product_native [0, 1, 10000, 2, 0, 0, 0, 0]
        [1, 1, 1, 1, 1, 1, 1, 1] [1, 2, 4] = some 3 := by
      norm_num [sparse_dot_product_native, sparse_kernel, mainLoop, remLoop,
        elemStep, readDense, qstep]
    rw [hsimd, hnat]
    intro hcontra
    have : (11 : ℚ) = 3 := by injection hcontra
    norm_num at this

theorem simd_group_semantics_witness :
    sparse_dot_product_simd [0] [1] [2] = sparse_dot_product_native [0] [1] [2] :=
  simd_group_semantics.1 [0] [1] [2] rfl (by decide)

/-! ## The aggregator's additive merge -/

lemma lookupTag_addTag (l : TagMap) (tag s : String) (d : ℚ) :
    lookupTag (addTag l tag d) s = lookupTag l s + (if tag = s then d else 0) := by
  induction l with
  | nil =>
    by_cases h : tag = s <;> simp [addTag, lookupTag, h]
  | cons p rest ih =>
    obtain ⟨k, v⟩ := p
    by_cases hk : k = tag
    · subst hk
      by_cases hs : k = s
      · subst hs
        simp [addTag, lookupTag]
      · simp [addTag, lookupTag, hs]
    · by_cases hs : k = s
      · subst hs
        have : ¬tag = k := fun h => hk h.symm
        simp [addTag, lookupTag, hk, this]
      · simp [addTag, lookupTag, hk, hs, ih]

lemma lookupGT_addEntry (c : Collector) (g tag g2 t2 : String) (d : ℚ) :
    lookupGT (addEntry c g tag d) g2 t2
      = lookupGT c g2 t2 + (if g = g2 ∧ tag = t2 then d else 0) := by
  induction c with
  | nil =>
    by_cases hg : g = g2
    · subst hg
      by_cases ht : tag = t2 <;>
        simp [addEntry, lookupGT, lookupTag_addTag, lookupTag, ht]
    · simp [addEntry, lookupGT, hg]
  | cons p rest ih =>
    obtain ⟨k, gl⟩ := p
    by_cases hk : k = g
    · subst hk
      by_cases hg2 : k = g2
      · subst hg2
        by_cases ht : tag = t2 <;>
          simp [addEntry, lookupGT, lookupTag_addTag, ht]
      · simp [addEntry, lookupGT, hg2, fun h : k = g2 ∧ tag = t2 => hg2 h.1]
    · by_cases hg2 : k = g2
      · subst hg2
        have : ¬(g = k ∧ tag = t2) := fun h => hk h.1.symm
        simp [addEntry, lookupGT, hk, this]
      · simp [addEntry, lookupGT, hk, hg2, ih]

lemma lookupTag_eq_zero_of_not_mem (l : TagMap) (s : String)
    (h : s ∉ l.map Prod.fst) : lookupTag l s = 0 := by
  induction l with
  | nil => rfl
  | cons p rest ih =>
    obtain ⟨k, v⟩ := p
    simp at h
    rw [lookupTag, if_neg (fun hk => h.1 hk.symm)]
    exact ih (by simpa using h.2)

lemma lookupGT_eq_zero_of_not_mem (c : Collector) (g t : String)
    (h : g ∉ c.map Prod.fst) : lookupGT c g t = 0 := by
  induction c with
  | nil => rfl
  | cons p rest ih =>
    obtain ⟨k, gl⟩ := p
    simp at h
    rw [lookupGT, if_neg (fun hk => h.1 hk.symm)]
    exact ih (by simpa using h.2)

lemma lookupGT_foldl_addEntry (g : String) :
    ∀ (gl : TagMap) (a0 : Collector) (g2 t2 : String),
      (gl.map Prod.fst).Nodup →
      lookupGT (gl.foldl (fun a q => addEntry a g q.1 q.2) a0) g2 t2
        = lookupGT a0 g2 t2 + (if g = g2 then lookupTag gl t2 else 0) := by
  intro gl
  induction gl with
  | nil =>
    intro a0 g2 t2 _
    by_cases hg : g = g2 <;> simp [lookupTag, hg]
  | cons q rest ih =>
    obtain ⟨tg, dd⟩ := q
    intro a0 g2 t2 hnd
    simp only [List.map_cons, List.nodup_cons] at hnd
    rw [List.foldl_cons, ih (addEntry a0 g tg dd) g2 t2 hnd.2,
      lookupGT_addEntry]
    by_cases hg : g = g2
    · subst hg
      by_cases ht : tg = t2
      · have hz : lookupTag rest t2 = 0 :=
          lookupTag_eq_zero_of_not_mem rest t2 (by rw [← ht]; exact hnd.1)
        simp [lookupTag, ht, hz]
      · simp [lookupTag, ht]
    · simp [hg]

lemma lookupGT_collect :
    ∀ (thr agg : Collector) (g t : String),
      CollectorWF thr →
      lookupGT (collect agg thr) g t = lookupGT agg g t + lookupGT thr g t := by
  intro thr
  induction thr with
  | nil => intro agg g t _; simp [collect, lookupGT]
  | cons p rest ih =>
    obtain ⟨g1, gl⟩ := p
    intro agg g t hwf
    obtain ⟨hgnd, hinner⟩ := hwf
    simp only [List.map_cons, List.nodup_cons] at hgnd
    have hwfrest : CollectorWF rest :=
      ⟨hgnd.2, fun q hq => hinner q (List.mem_cons_of_mem _ hq)⟩
    have hglnd : (gl.map Prod.fst).Nodup :=
      hinner (g1, gl) (List.mem_cons_self _ _)
    show lookupGT (collect (gl.foldl (fun a2 q => addEntry a2 g1 q.1 q.2) agg) rest) g t = _
    rw [ih (gl.foldl (fun a2 q => addEntry a2 g1 q.1 q.2) agg) g t hwfrest,
      lookupGT_foldl_addEntry g1 gl agg g t hglnd]
    by_cases hg : g1 = g
    · subst hg
      have hz : lookupGT rest g1 t = 0 :=
        lookupGT_eq_zero_of_not_mem rest g1 t hgnd.1
      simp [lookupGT, hz]
    · simp [lookupGT, hg]

/-- C6: `collect` is an additive merge.  For every `(group, tag)` of a
well-formed thread-local collector it adds that duration into the
aggregator's running total (creating the entry when absent); merging two
thread collectors adds both contributions, so two threads holding the
same duration `D` for the same `(group, tag)` yield `2·D`, and
collecting the same unchanged thread twice also doubles its
contribution — additive, not idempotent.  The thread-local argument is
only read: the merged result is a new aggregator value. -/
theorem collect_additive_merge :
    ∀ (agg thr1 thr2 : Collector) (g t : String),
      CollectorWF thr1 → CollectorWF thr2 →
      (lookupGT (collect agg thr1) g t = lookupGT agg g t + lookupGT thr1 g t)
      ∧ (lookupGT (collect (collect agg thr1) thr2) g t
          = lookupGT agg g t + lookupGT thr1 g t + lookupGT thr2 g t)
      ∧ (∀ D : ℚ, lookupGT thr1 g t = D → lookupGT thr2 g t = D →
          lookupGT (collect (collect agg thr1) thr2) g t = lookupGT agg g t + 2 * D)
      ∧ (lookupGT (collect (collect agg thr1) thr1) g t
          = lookupGT agg g t + 2 * lookupGT thr1 g t) := by
  intro agg thr1 thr2 g t hwf1 hwf2
  have h1 := lookupGT_collect thr1 agg g t hwf1
  have h2 := lookupGT_collect thr2 (collect agg thr1) g t hwf2
  have h11 := lookupGT_collect thr1 (collect agg thr1) g t hwf1
  refine ⟨h1, by rw [h2, h1], ?_, by rw [h11, h1]; ring⟩
  intro D hD1 hD2
  rw [h2, h1, hD1, hD2]
  ring

theorem collect_additive_merge_witness :
    lookupGT (collect (collect [] [("g", [("t", 5)])] ) [("g", [("t", 5)])]) "g" "t"
      = lookupGT ([] : Collector) "g" "t" + 2 * 5 :=
  (collect_additive_merge [] [("g", [("t", 5)])] [("g", [("t", 5)])] "g" "t"
    (by constructor <;> decide) (by constructor <;> decide)).2.2.1 5 rfl rfl

/-! ## The multi-segment timer's completion -/

lemma doneWalk_eq_specIntervals (g : String) :
    ∀ (l : List (ℚ × String)) (p : ℚ × String),
      doneWalk g p l = specIntervals g (p :: l) := by
  intro l
  induction l with
  | nil => intro p; rfl
  | cons q rest ih =>
    intro p
    obtain ⟨tnow, tag⟩ := q
    rw [doneWalk, ih (tnow, tag)]
    rfl

/-- C7: for a multi-segment timer holding a nonempty checkpoint
sequence, `Done` (with the debug flag on) appends one final `"end"`
checkpoint, reports each consecutive checkpoint pair's duration under
the earlier checkpoint's tag, and clears the sequence; calling `Done`
again on the result reports nothing and changes nothing. -/
theorem done_reports_intervals :
    ∀ (τ : Nat → ℚ) (clock : Nat) (st : StopTimer), st.stops ≠ [] →
      (StopTimer.Done true τ clock st).1 = { group := st.group, stops := [] }
      ∧ (StopTimer.Done true τ clock st).2.2
          = specIntervals st.group (st.stops ++ [(τ clock, "end")])
      ∧ ∀ clock2 : Nat,
          StopTimer.Done true τ clock2 (StopTimer.Done true τ clock st).1
            = ((StopTimer.Done true τ clock st).1, clock2, []) := by
  intro τ clock st hne
  obtain ⟨g, stops⟩ := st
  cases stops with
  | nil => exact absurd rfl hne
  | cons p rest =>
    refine ⟨rfl, ?_, fun clock2 => rfl⟩
    show doneWalk g p (rest ++ [(τ clock, "end")])
      = specIntervals g ((p :: rest) ++ [(τ clock, "end")])
    rw [doneWalk_eq_specIntervals g (rest ++ [(τ clock, "end")]) p]
    rfl

theorem done_reports_intervals_witness :
    (StopTimer.Done true (fun _ => 7) 0 { group := "g", stops := [(2, "a")] }).2.2
      = specIntervals "g" ([(2, "a")] ++ [(7, "end")]) :=
  (done_reports_intervals (fun _ => 7) 0 { group := "g", stops := [(2, "a")] }
    (by decide)).2.1

/-! ## The debug flag -/

/-- Counterexample to C8 as stated: `Timer` construction is not a no-op
when the debug flag is off — the constructor does not consult the flag
at all, it unconditionally performs a `now()` call (the clock counter
advances) and stores the captured timestamp. -/
theorem timer_construct_captures_timestamp :
    (Timer.construct (fun _ => 0) 5 "tag" 0).2 = 6
    ∧ (Timer.construct (fun _ => 0) 5 "tag" 0).1.startTime = 0 :=
  ⟨rfl, rfl⟩

/-- C8 amended: when the debug flag is off, `Timer` destruction,
`StopTimerT::Stop`, `StopTimerT::Done` and all reporting are no-ops —
no `now()` call, no output, no reported sample, and the thread-local
collector (hence the aggregator, which is only ever fed from it by an
explicit `collect`) is left unchanged; `Timer` construction, however,
still captures a start timestamp. -/
theorem debug_off_no_ops :
    ∀ (τ : Nat → ℚ) (clock : Nat) (tm : Timer) (st : StopTimer)
      (tag : String) (c : Collector),
      Timer.destruct false τ clock tm = (clock, [])
      ∧ StopTimer.Stop false τ clock tag st = (st, clock)
      ∧ StopTimer.Done false τ clock st = (st, clock, [])
      ∧ applyReports c (StopTimer.Done false τ clock st).2.2 = c :=
  fun _ _ _ _ _ _ => ⟨rfl, rfl, rfl, rfl⟩

/-! ## Report on a zero-total group -/

/-- Counterexample to C9 as stated: on a group whose total duration is
zero, `report` divides each tag's duration by the zero total — the
percentage is not a defined value (it is NaN) and the group is not
suppressed. -/
theorem report_zero_total_counterexample :
    report [("g", [("a", 0)])]
      = [("g", [{ tag := "a", duration := 0, percentage := none, isLast := true }])] := by
  simp [report, reportGroup, percentOf, List.enum]

/-- C9 amended: for every group of the aggregator whose total duration
is zero, `report` still renders the group (no suppression) and every one
of its tag lines carries an undefined (NaN) percentage obtained by
dividing by the zero total. -/
theorem report_zero_total_nan :
    ∀ (c : Collector) (g : String) (gl : TagMap),
      (g, gl) ∈ c → (gl.map fun p => p.2).sum = 0 →
      (g, reportGroup gl) ∈ report c
      ∧ ∀ line ∈ reportGroup gl, line.percentage = none := by
  intro c g gl hmem hsum
  constructor
  · rw [report]
    exact List.mem_map.mpr ⟨(g, gl), hmem, rfl⟩
  · intro line hline
    rw [reportGroup] at hline
    simp only [List.mem_map] at hline
    obtain ⟨p, _, hp⟩ := hline
    rw [← hp]
    simp [percentOf, hsum]

theorem report_zero_total_nan_witness :
    ("g", reportGroup [("a", 0)]) ∈ report [("g", [("a", 0)])] :=
  (report_zero_total_nan [("g", [("a", 0)])] "g" [("a", 0)]
    (by simp) (by simp)).1

end NeuralSearch
